import Mathlib

/-!
Verification development for the PageRank estimation engine (pagerank.py).

The source is shallowly embedded:
* Python floats are modelled by exact rationals; numeric claims stated
  "within floating-point tolerance" are settled with exact arithmetic.
* A Python dict (insertion-ordered mapping) is an association list; dict
  assignment updates an existing key in place or appends a fresh key.
* The pseudo-random source is an oracle, a function from the step index to
  a natural number used as an index into the drawn population; the
  probability semantics of a weighted draw (random.choices) is modelled
  separately as the normalized weight mass attributed to each candidate.
* A Python exception is an explicit error value: an empty-population draw
  raises a value error (modelled as invalidInput), dividing by a zero
  length raises zeroDivision, and taking the length of a missing dict
  entry (None) raises typeError.
-/

set_option maxHeartbeats 4000000
set_option maxRecDepth 4000

abbrev Page := Nat

/-- A Python dict mapping pages to rationals, as an insertion-ordered
association list. -/
abbrev Dict := List (Page × ℚ)

/-- The corpus: a Python dict mapping each page to its list of out-links
(a set, hence assumed duplicate-free where well-formedness is needed). -/
abbrev Corpus := List (Page × List Page)

/-- Python dict lookup d.get(p): the first binding of p, if any. -/
def dget (d : Dict) (p : Page) : Option ℚ :=
  match d with
  | [] => none
  | kv :: rest => if kv.1 = p then some kv.2 else dget rest p

/-- Lookup with a default value. -/
def dgetD (d : Dict) (p : Page) (v : ℚ) : ℚ :=
  (dget d p).getD v

/-- Python dict assignment d[p] = v: replace the binding in place when the
key is present, append it otherwise. -/
def dset (d : Dict) (p : Page) (v : ℚ) : Dict :=
  match d with
  | [] => [(p, v)]
  | kv :: rest => if kv.1 = p then (p, v) :: rest else kv :: dset rest p v

/-- corpus.get(page): the out-link list of a page, if the page is a key. -/
def cget (c : Corpus) (p : Page) : Option (List Page) :=
  match c with
  | [] => none
  | kv :: rest => if kv.1 = p then some kv.2 else cget rest p

/-- corpus.get with a default. -/
def cgetD (c : Corpus) (p : Page) (v : List Page) : List Page :=
  (cget c p).getD v

/-- The key list of a Python dict (corpus or rank dict), in insertion
order. -/
def keys {α : Type} (c : List (Page × α)) : List Page :=
  c.map (fun kv => kv.1)

/-- The sum of the values of a dict (used for distribution mass). -/
def valuesSum (d : Dict) : ℚ :=
  (d.map (fun kv => kv.2)).sum

/-- Python sorted(...) on a list of pages. -/
def sortedL (l : List Page) : List Page :=
  l.insertionSort (· ≤ ·)

/-- The Python exceptions the embedded code can raise. -/
inductive Err
  /-- ValueError: a sample/draw from an empty or invalid population. -/
  | invalidInput
  /-- ZeroDivisionError: division by the length of an empty corpus. -/
  | zeroDivision
  /-- TypeError: taking len(None) after a failed dict lookup. -/
  | typeError
deriving DecidableEq, Repr

/-- transition_model(corpus, page, damping_factor), lines 51-76 of
pagerank.py.  It looks up the page's out-links, divides by len(corpus)
(raising on an empty corpus), takes len of the lookup result (raising
when the page is not a key), gives each linked page the link mass plus
the random-jump mass when the page has out-links, and finally gives every
not-yet-assigned corpus page the random-jump mass alone. -/
def transition_model (corpus : Corpus) (page : Page) (damping_factor : ℚ) :
    Except Err Dict :=
  let linked_pages := cget corpus page
  if corpus.length = 0 then .error .zeroDivision
  else
    let probability_random := (1 - damping_factor) / corpus.length
    match linked_pages with
    | none => .error .typeError
    | some lp =>
      let t1 :=
        if 0 < lp.length then
          let probability_linked := damping_factor / lp.length
          lp.foldl (fun acc q => dset acc q (probability_linked + probability_random)) []
        else []
      .ok (corpus.foldl
        (fun acc kv => if (dget acc kv.1).isSome then acc else dset acc kv.1 probability_random)
        t1)

/-- The dict carried by a successful transition_model call ([] on error). -/
def exDict (e : Except Err Dict) : Dict :=
  match e with
  | .ok d => d
  | .error _ => []

/-- The population handed to random.choices in one step of
sample_pagerank (lines 100-107): the out-links of the current page when
there are any, the sorted page list otherwise. -/
def drawPopulation (corpus : Corpus) (current_page : Page) : List Page :=
  match cget corpus current_page with
  | none => []
  | some lp => if 0 < lp.length then lp else sortedL (keys corpus)

/-- The weight list handed to random.choices in one step of
sample_pagerank: the transition-dict values of the sorted out-links when
there are any, otherwise one copy of (1 - damping) / N per corpus page. -/
def drawWeights (corpus : Corpus) (current_page : Page) (damping_factor : ℚ) : List ℚ :=
  let transition_dict := exDict (transition_model corpus current_page damping_factor)
  match cget corpus current_page with
  | none => []
  | some lp =>
    if 0 < lp.length then (sortedL lp).map (fun q => dgetD transition_dict q 0)
    else (List.range corpus.length).map (fun _ => (1 - damping_factor) / corpus.length)

/-- The probability that a weighted draw over population pop with weights
ws (random.choices semantics) returns q: the weight mass attached to q,
normalized by the total weight. -/
def weightedProb (pop : List Page) (ws : List ℚ) (q : Page) : ℚ :=
  (((pop.zip ws).filter (fun pw => pw.1 = q)).map (fun pw => pw.2)).sum / ws.sum

/-- The sampling walk of sample_pagerank (the while loop, lines 95-108):
for each of the remaining steps, record the current page, build the
transition dict (propagating any exception), and move to the population
element selected by the seed oracle. -/
def sampleWalk (corpus : Corpus) (damping_factor : ℚ) (seed : Nat → Nat) :
    Nat → Page → Except Err (List Page)
  | 0, _ => .ok []
  | i + 1, current_page =>
    match transition_model corpus current_page damping_factor with
    | .error e => .error e
    | .ok _ =>
      let pop := drawPopulation corpus current_page
      let next := pop.getD (seed (i + 1) % pop.length) 0
      match sampleWalk corpus damping_factor seed i next with
      | .error e => .error e
      | .ok rest => .ok (current_page :: rest)

/-- sample_pagerank(corpus, damping_factor, n), lines 79-117.  The start
page is drawn from the sorted page list (random.sample raises a value
error on an empty population); after the walk, each corpus page is mapped
to its visit count divided by n, or 0 when never visited. -/
def sample_pagerank (corpus : Corpus) (damping_factor : ℚ) (n : Nat) (seed : Nat → Nat) :
    Except Err Dict :=
  let sorted_corpus := sortedL (keys corpus)
  if sorted_corpus.length = 0 then .error .invalidInput
  else
    let random_page := sorted_corpus.getD (seed 0 % sorted_corpus.length) 0
    match sampleWalk corpus damping_factor seed n random_page with
    | .error e => .error e
    | .ok sample_list =>
      .ok ((keys corpus).map (fun page =>
        (page, if page ∈ sample_list then (sample_list.count page : ℚ) / n else 0)))

/-- The convergence threshold hardcoded at line 131. -/
def threshold : ℚ := 1 / 1000

/-- list_of_incoming_pages for page_p (lines 140-143): every corpus page
that links to page_p or has no out-links, in corpus order. -/
def incomingPages : Corpus → Page → List Page
  | [], _ => []
  | kv :: rest, page_p =>
    if page_p ∈ kv.2 ∨ kv.2.length = 0 then kv.1 :: incomingPages rest page_p
    else incomingPages rest page_p

/-- The summation of lines 147-158: over the incoming pages when there
are any (a dangling contributor is divided by len(corpus) instead of its
zero link count), otherwise over the dangling pages of the corpus. -/
def pageSummation (corpus : Corpus) (r : Dict) (page_p : Page) : ℚ :=
  let incoming := incomingPages corpus page_p
  if 0 < incoming.length then
    incoming.foldl
      (fun s i =>
        let num_links := (cgetD corpus i []).length
        let nl := if num_links = 0 then corpus.length else num_links
        s + dgetD r i 0 / nl)
      0
  else
    corpus.foldl
      (fun s kv => if kv.2.length = 0 then s + dgetD r kv.1 0 / corpus.length else s)
      0

/-- new_pagerank for page_p (line 160), computed from the current state
of the rank dict r. -/
def pageNew (corpus : Corpus) (damping_factor : ℚ) (r : Dict) (page_p : Page) : ℚ :=
  (1 - damping_factor) / corpus.length + damping_factor * pageSummation corpus r page_p

/-- The body of the inner for loop (lines 139-166): store the new rank in
place, then decrement the counter when the change is within threshold and
reset it to len(corpus) otherwise. -/
def pageUpdate (corpus : Corpus) (damping_factor : ℚ) (rc : Dict × Int) (page_p : Page) :
    Dict × Int :=
  let old_pagerank := dgetD rc.1 page_p 0
  let new_pagerank := pageNew corpus damping_factor rc.1 page_p
  let r2 := dset rc.1 page_p new_pagerank
  if |new_pagerank - old_pagerank| ≤ threshold then (r2, rc.2 - 1)
  else (r2, (corpus.length : Int))

/-- One full pass of the iterate_pagerank while loop: the inner for loop
over all corpus pages, threading the in-place rank dict and the counter. -/
def iteratePass (corpus : Corpus) (damping_factor : ℚ) (rc : Dict × Int) : Dict × Int :=
  (keys corpus).foldl (pageUpdate corpus damping_factor) rc

/-- Whether every page update of one pass over the given page list,
started from rank dict r, changes its page by at most threshold; the
updates are threaded exactly as the pass threads them. -/
def passAllWithin (corpus : Corpus) (damping_factor : ℚ) : List Page → Dict → Bool
  | [], _ => true
  | p :: rest, r =>
    let old := dgetD r p 0
    let new := pageNew corpus damping_factor r p
    (decide (|new - old| ≤ threshold)) && passAllWithin corpus damping_factor rest (dset r p new)

/-- The initialization loop of iterate_pagerank (lines 135-136): every
page starts at 1 / len(corpus). -/
def initRanks (corpus : Corpus) : Dict :=
  corpus.foldl (fun acc kv => dset acc kv.1 ((1 : ℚ) / corpus.length)) []

/-- The while loop of iterate_pagerank (lines 138-166), with explicit
fuel: run passes while the counter is positive; none means the fuel ran
out before the loop exited. -/
def iterateLoop (corpus : Corpus) (damping_factor : ℚ) : Nat → Dict × Int → Option Dict
  | 0, _ => none
  | fuel + 1, rc =>
    if 0 < rc.2 then iterateLoop corpus damping_factor fuel (iteratePass corpus damping_factor rc)
    else some rc.1

/-- iterate_pagerank(corpus, damping_factor), lines 120-168, with fuel:
initialize every rank to 1 / len(corpus), set the counter to
len(corpus), and loop until the counter is exhausted. -/
def iterate_pagerank (corpus : Corpus) (damping_factor : ℚ) (fuel : Nat) : Option Dict :=
  iterateLoop corpus damping_factor fuel (initRanks corpus, (corpus.length : Int))

/-- Well-formedness of a corpus as built by the crawler: non-empty, keys
distinct, every out-link list duplicate-free and contained in the keys. -/
def WF (corpus : Corpus) : Prop :=
  corpus ≠ [] ∧ (keys corpus).Nodup ∧
    ∀ kv ∈ corpus, kv.2.Nodup ∧ ∀ q ∈ kv.2, q ∈ keys corpus

instance : DecidablePred WF := fun corpus => by
  unfold WF; infer_instance

/-! ### Association-list (Python dict) lemmas -/

theorem dget_eq_none_iff (d : Dict) (p : Page) : dget d p = none ↔ p ∉ keys d := by
  induction d with
  | nil => simp [dget, keys]
  | cons kv rest ih =>
    by_cases h : kv.1 = p
    · simp [dget, keys, h]
    · simp [dget, keys, h, ih, Ne.symm h]

theorem dget_isSome_iff (d : Dict) (p : Page) : (dget d p).isSome = true ↔ p ∈ keys d := by
  rcases hd : dget d p with _ | v
  · simpa [hd] using (dget_eq_none_iff d p).mp hd
  · have : ¬ dget d p = none := by simp [hd]
    simp only [hd, Option.isSome_some, true_iff]
    by_contra hmem
    exact this ((dget_eq_none_iff d p).mpr hmem)

theorem cget_eq_none_iff (c : Corpus) (p : Page) : cget c p = none ↔ p ∉ keys c := by
  induction c with
  | nil => simp [cget, keys]
  | cons kv rest ih =>
    by_cases h : kv.1 = p
    · simp [cget, keys, h]
    · simp [cget, keys, h, ih, Ne.symm h]

theorem cget_isSome_of_mem (c : Corpus) (p : Page) (h : p ∈ keys c) :
    ∃ v, cget c p = some v := by
  rcases hc : cget c p with _ | v
  · exact absurd ((cget_eq_none_iff c p).mp hc) (by simp [h])
  · exact ⟨v, rfl⟩

theorem cget_mem (c : Corpus) (p : Page) (v : List Page) (h : cget c p = some v) :
    (p, v) ∈ c := by
  induction c with
  | nil => simp [cget] at h
  | cons kv rest ih =>
    rcases kv with ⟨k, l⟩
    by_cases hk : k = p
    · simp only [cget, if_pos hk] at h
      injection h with h
      subst hk
      subst h
      exact List.mem_cons_self _ _
    · simp only [cget, if_neg hk] at h
      exact List.mem_cons_of_mem _ (ih h)

theorem dget_append (a b : Dict) (p : Page) :
    dget (a ++ b) p = ((dget a p).or (dget b p)) := by
  induction a with
  | nil => simp [dget]
  | cons kv rest ih =>
    by_cases h : kv.1 = p
    · simp [dget, h]
    · simp [dget, h, ih]

theorem dset_eq_append (d : Dict) (p : Page) (v : ℚ) (h : p ∉ keys d) :
    dset d p v = d ++ [(p, v)] := by
  induction d with
  | nil => simp [dset]
  | cons kv rest ih =>
    have hk : kv.1 ≠ p := by
      intro he
      exact h (by simp [keys, he])
    have hrest : p ∉ keys rest := by
      intro hm
      apply h
      simp [keys] at hm ⊢
      exact Or.inr hm
    simp only [dset, if_neg hk, List.cons_append]
    rw [ih hrest]

theorem dget_map_const (l : List Page) (v : ℚ) (p : Page) :
    dget (l.map (fun q => (q, v))) p = if p ∈ l then some v else none := by
  induction l with
  | nil => simp [dget]
  | cons a rest ih =>
    by_cases h : a = p
    · simp [dget, h]
    · simp [dget, h, ih, Ne.symm h]

theorem keys_map_pair {α : Type} (c : List (Page × α)) (f : Page × α → ℚ) :
    keys (c.map (fun kv => (kv.1, f kv))) = keys c := by
  induction c with
  | nil => rfl
  | cons kv rest ih =>
    simp only [List.map_cons, keys] at ih ⊢
    rw [ih]

theorem keys_filter_key (c : Corpus) (p : Page → Bool) :
    keys (c.filter (fun kv => p kv.1)) = (keys c).filter p := by
  induction c with
  | nil => rfl
  | cons kv rest ih =>
    by_cases h : p kv.1
    · simp [keys, List.filter_cons, h] at ih ⊢; exact ih
    · simp [keys, List.filter_cons, h] at ih ⊢; exact ih

theorem valuesSum_append (a b : Dict) : valuesSum (a ++ b) = valuesSum a + valuesSum b := by
  simp [valuesSum]

theorem valuesSum_map_const {α : Type} (l : List α) (k : α → Page) (v : ℚ) :
    valuesSum (l.map (fun x => (k x, v))) = l.length * v := by
  have : (l.map (fun x => (k x, v))).map (fun kv => kv.2) = List.replicate l.length v := by
    rw [List.map_map]
    exact List.map_const' l v
  rw [valuesSum, this, List.sum_replicate, nsmul_eq_mul]

/-! ### Structure of the transition_model result -/

theorem foldl_dset_fresh (v : ℚ) :
    ∀ (lp : List Page) (acc : Dict), lp.Nodup → (∀ q ∈ lp, q ∉ keys acc) →
      lp.foldl (fun a q => dset a q v) acc = acc ++ lp.map (fun q => (q, v))
  | [], acc, _, _ => by simp
  | q :: rest, acc, hnd, hfresh => by
    have hq : q ∉ keys acc := hfresh q (List.mem_cons_self q rest)
    have hstep : dset acc q v = acc ++ [(q, v)] := dset_eq_append acc q v hq
    have hrest : ∀ x ∈ rest, x ∉ keys (acc ++ [(q, v)]) := by
      intro x hx hmem
      have hxq : x ≠ q := by
        rintro rfl
        exact (List.nodup_cons.mp hnd).1 hx
      simp only [keys, List.map_append, List.mem_append, List.map_cons] at hmem
      rcases hmem with hm | hm
      · exact hfresh x (List.mem_cons_of_mem _ hx) (by simpa [keys] using hm)
      · simp at hm
        exact hxq hm
    calc (q :: rest).foldl (fun a q => dset a q v) acc
        = rest.foldl (fun a q => dset a q v) (acc ++ [(q, v)]) := by
          simp [List.foldl_cons, hstep]
      _ = (acc ++ [(q, v)]) ++ rest.map (fun x => (x, v)) :=
          foldl_dset_fresh v rest (acc ++ [(q, v)]) (List.nodup_cons.mp hnd).2 hrest
      _ = acc ++ (q :: rest).map (fun x => (x, v)) := by simp

theorem foldl_addMissing (v : ℚ) :
    ∀ (cs : Corpus) (acc : Dict), (keys cs).Nodup →
      cs.foldl (fun a kv => if (dget a kv.1).isSome then a else dset a kv.1 v) acc
        = acc ++ (cs.filter (fun kv => (dget acc kv.1).isNone)).map (fun kv => (kv.1, v))
  | [], acc, _ => by simp
  | kv :: rest, acc, hnd => by
    have hnd' : (keys rest).Nodup := (List.nodup_cons.mp (by simpa [keys] using hnd)).2
    have hk : kv.1 ∉ keys rest := (List.nodup_cons.mp (by simpa [keys] using hnd)).1
    by_cases hmem : (dget acc kv.1).isSome
    · have hfil : (kv :: rest).filter (fun kv => (dget acc kv.1).isNone)
          = rest.filter (fun kv => (dget acc kv.1).isNone) := by
        rw [List.filter_cons_of_neg]
        simp [Option.isNone_iff_eq_none]
        exact Option.isSome_iff_ne_none.mp hmem
      rw [hfil]
      have := foldl_addMissing v rest acc hnd'
      simpa [List.foldl_cons, if_pos hmem] using this
    · have hnone : dget acc kv.1 = none := Option.not_isSome_iff_eq_none.mp hmem
      have hset : dset acc kv.1 v = acc ++ [(kv.1, v)] :=
        dset_eq_append acc kv.1 v ((dget_eq_none_iff acc kv.1).mp hnone)
      have hrec := foldl_addMissing v rest (acc ++ [(kv.1, v)]) hnd'
      have hfilrest : rest.filter (fun x => (dget (acc ++ [(kv.1, v)]) x.1).isNone)
          = rest.filter (fun x => (dget acc x.1).isNone) := by
        apply List.filter_congr
        intro x hx
        have hxk : x.1 ≠ kv.1 := by
          intro he
          exact hk (by simpa [keys, he] using List.mem_map_of_mem (fun kv => kv.1) hx)
        rw [dget_append]
        rcases hdx : dget acc x.1 with _ | w
        · simp [dget, hxk, Ne.symm hxk]
        · simp
      calc (kv :: rest).foldl (fun a kv => if (dget a kv.1).isSome then a else dset a kv.1 v) acc
          = rest.foldl (fun a kv => if (dget a kv.1).isSome then a else dset a kv.1 v)
              (acc ++ [(kv.1, v)]) := by
            simp [List.foldl_cons, if_neg hmem, hset]
        _ = (acc ++ [(kv.1, v)]) ++
              (rest.filter (fun x => (dget (acc ++ [(kv.1, v)]) x.1).isNone)).map
                (fun x => (x.1, v)) := hrec
        _ = acc ++ ((kv :: rest).filter (fun x => (dget acc x.1).isNone)).map
              (fun x => (x.1, v)) := by
            rw [hfilrest, List.filter_cons_of_pos (by simp [hnone])]
            simp

theorem transition_model_eq (corpus : Corpus) (page : Page) (d : ℚ) (lp : List Page)
    (hne : corpus ≠ []) (hget : cget corpus page = some lp)
    (hndk : (keys corpus).Nodup) (hnd : lp.Nodup) :
    transition_model corpus page d = .ok (
      if 0 < lp.length then
        lp.map (fun q => (q, d / lp.length + (1 - d) / corpus.length)) ++
          (corpus.filter (fun kv => !decide (kv.1 ∈ lp))).map
            (fun kv => (kv.1, (1 - d) / corpus.length))
      else corpus.map (fun kv => (kv.1, (1 - d) / corpus.length))) := by
  have hlen : ¬ corpus.length = 0 := by
    rw [List.length_eq_zero]
    exact hne
  by_cases hlp : 0 < lp.length
  · have ht1 : lp.foldl
        (fun acc q => dset acc q (d / lp.length + (1 - d) / corpus.length)) []
        = lp.map (fun q => (q, d / lp.length + (1 - d) / corpus.length)) := by
      have := foldl_dset_fresh (d / lp.length + (1 - d) / corpus.length) lp [] hnd
        (by intro q _ hq; simp [keys] at hq)
      simpa using this
    have hfold := foldl_addMissing ((1 - d) / corpus.length) corpus
      (lp.map (fun q => (q, d / lp.length + (1 - d) / corpus.length))) hndk
    have hfil : corpus.filter
        (fun kv => (dget (lp.map (fun q =>
          (q, d / lp.length + (1 - d) / corpus.length))) kv.1).isNone)
        = corpus.filter (fun kv => !decide (kv.1 ∈ lp)) := by
      apply List.filter_congr
      intro kv _
      rw [dget_map_const]
      by_cases hm : kv.1 ∈ lp
      · simp [hm]
      · simp [hm]
    simp only [transition_model, hget, if_neg hlen, if_pos hlp, ht1, hfold, hfil]
  · have hlp0 : lp = [] := List.length_eq_zero.mp (by omega)
    subst hlp0
    have hfold := foldl_addMissing ((1 - d) / corpus.length) corpus [] hndk
    have hfil : corpus.filter (fun kv => (dget [] kv.1).isNone) = corpus := by
      simp [dget]
    simp only [transition_model, hget, if_neg hlen, if_neg hlp, hfold, hfil]
    simp

theorem keys_append {α : Type} (a b : List (Page × α)) :
    keys (a ++ b) = keys a ++ keys b := by
  simp [keys]

theorem keys_map_fst (l : List Page) (v : ℚ) :
    keys (l.map (fun q => (q, v))) = l := by
  induction l with
  | nil => rfl
  | cons a rest ih =>
    simp only [List.map_cons, keys] at ih ⊢
    rw [ih]

theorem linked_perm (lp ks : List Page) (hnd : lp.Nodup) (hndk : ks.Nodup)
    (hsub : ∀ q ∈ lp, q ∈ ks) :
    List.Perm (lp ++ ks.filter (fun k => !decide (k ∈ lp))) ks := by
  have h1 : List.Perm lp (ks.filter (fun k => decide (k ∈ lp))) := by
    apply List.Subperm.antisymm
    · apply List.Nodup.subperm hnd
      intro q hq
      exact List.mem_filter.mpr ⟨hsub q hq, by simpa using hq⟩
    · apply List.Nodup.subperm (hndk.filter _)
      intro q hq
      simpa using (List.mem_filter.mp hq).2
  exact (h1.append (List.Perm.refl _)).trans
    (List.filter_append_perm (fun k => decide (k ∈ lp)) ks)

theorem WF_links (corpus : Corpus) (page : Page) (lp : List Page)
    (h : WF corpus) (hget : cget corpus page = some lp) :
    lp.Nodup ∧ ∀ q ∈ lp, q ∈ keys corpus :=
  h.2.2 (page, lp) (cget_mem corpus page lp hget)

theorem mass_arith (L F N : ℕ) (d : ℚ) (hL : L ≠ 0) (hN : N ≠ 0) (hLF : L + F = N) :
    (L : ℚ) * (d / L + (1 - d) / N) + (F : ℚ) * ((1 - d) / N) = 1 := by
  have hLQ : (L : ℚ) ≠ 0 := Nat.cast_ne_zero.mpr hL
  have hNQ : (N : ℚ) ≠ 0 := Nat.cast_ne_zero.mpr hN
  have hFQ : (F : ℚ) = (N : ℚ) - (L : ℚ) := by
    have : (L : ℚ) + (F : ℚ) = (N : ℚ) := by exact_mod_cast congrArg (Nat.cast : ℕ → ℚ) hLF
    linarith
  rw [hFQ]
  field_simp
  ring

theorem tm_keys_perm (corpus : Corpus) (page : Page) (d : ℚ) (lp : List Page)
    (hwf : WF corpus) (hget : cget corpus page = some lp) :
    List.Perm (keys (exDict (transition_model corpus page d))) (keys corpus) := by
  obtain ⟨hnd, hsub⟩ := WF_links corpus page lp hwf hget
  rw [transition_model_eq corpus page d lp hwf.1 hget hwf.2.1 hnd]
  by_cases hlp : 0 < lp.length
  · rw [if_pos hlp]
    have hkeys : keys (lp.map (fun q => (q, d / lp.length + (1 - d) / corpus.length)) ++
        (corpus.filter (fun kv => !decide (kv.1 ∈ lp))).map
          (fun kv => (kv.1, (1 - d) / corpus.length)))
        = lp ++ (keys corpus).filter (fun k => !decide (k ∈ lp)) := by
      rw [keys_append, keys_map_pair]
      congr 1
      · exact keys_map_fst lp _
      · exact keys_filter_key corpus (fun k => !decide (k ∈ lp))
    rw [exDict, hkeys]
    exact linked_perm lp (keys corpus) hnd hwf.2.1 hsub
  · rw [if_neg hlp, exDict]
    have : keys (corpus.map (fun kv => (kv.1, (1 - d) / corpus.length))) = keys corpus :=
      keys_map_pair corpus _
    rw [this]

theorem tm_sum (corpus : Corpus) (page : Page) (d : ℚ) (lp : List Page)
    (hwf : WF corpus) (hget : cget corpus page = some lp) :
    valuesSum (exDict (transition_model corpus page d)) =
      (if lp.length = 0 then 1 - d else 1) := by
  obtain ⟨hnd, hsub⟩ := WF_links corpus page lp hwf hget
  have hN : corpus.length ≠ 0 := by
    intro h0
    exact hwf.1 (List.length_eq_zero.mp h0)
  rw [transition_model_eq corpus page d lp hwf.1 hget hwf.2.1 hnd]
  by_cases hlp : 0 < lp.length
  · rw [if_pos hlp, exDict, if_neg (by omega)]
    rw [valuesSum_append]
    have h1 : valuesSum (lp.map (fun q => (q, d / lp.length + (1 - d) / corpus.length)))
        = lp.length * (d / lp.length + (1 - d) / corpus.length) :=
      valuesSum_map_const lp id _
    have h2 : valuesSum ((corpus.filter (fun kv => !decide (kv.1 ∈ lp))).map
        (fun kv => (kv.1, (1 - d) / corpus.length)))
        = (corpus.filter (fun kv => !decide (kv.1 ∈ lp))).length *
            ((1 - d) / corpus.length) :=
      valuesSum_map_const _ _ _
    rw [h1, h2]
    have hflen : (corpus.filter (fun kv => !decide (kv.1 ∈ lp))).length
        = ((keys corpus).filter (fun k => !decide (k ∈ lp))).length := by
      have := keys_filter_key corpus (fun k => !decide (k ∈ lp))
      calc (corpus.filter (fun kv => !decide (kv.1 ∈ lp))).length
          = (keys (corpus.filter (fun kv => !decide (kv.1 ∈ lp)))).length := by
            simp [keys]
        _ = ((keys corpus).filter (fun k => !decide (k ∈ lp))).length := by rw [this]
    have hperm := linked_perm lp (keys corpus) hnd hwf.2.1 hsub
    have hlen := hperm.length_eq
    simp only [List.length_append] at hlen
    have hkeyslen : (keys corpus).length = corpus.length := by simp [keys]
    rw [hflen]
    exact mass_arith lp.length ((keys corpus).filter (fun k => !decide (k ∈ lp))).length
      corpus.length d (by omega) hN (by omega)
  · rw [if_neg hlp, exDict, if_pos (by omega)]
    have h1 : valuesSum (corpus.map (fun kv => (kv.1, (1 - d) / corpus.length)))
        = corpus.length * ((1 - d) / corpus.length) :=
      valuesSum_map_const corpus _ _
    rw [h1]
    have hNQ : (corpus.length : ℚ) ≠ 0 := Nat.cast_ne_zero.mpr hN
    field_simp

/-! ### Concrete corpora used as test inputs -/

/-- A single page with no out-links. -/
def corpusSingle : Corpus := [(0, [])]

/-- Two pages linking to each other. -/
def corpusCycle : Corpus := [(0, [1]), (1, [0])]

/-- A three-page chain whose last page is dangling. -/
def corpusChain : Corpus := [(0, [1]), (1, [2]), (2, [])]

/-- The same mapping as corpusChain, with the keys in reverse insertion
order (equal as a Python dict, different iteration order). -/
def corpusChainRev : Corpus := [(2, []), (1, [2]), (0, [1])]

/-- Helper: a successful transition_model call exists whenever the corpus
is non-empty and the page is one of its keys. -/
theorem tm_ok (corpus : Corpus) (page : Page) (d : ℚ)
    (hne : corpus ≠ []) (hmem : page ∈ keys corpus) :
    ∃ t, transition_model corpus page d = Except.ok t := by
  obtain ⟨lp, hget⟩ := cget_isSome_of_mem corpus page hmem
  have hlen : ¬ corpus.length = 0 := by
    intro h0
    exact hne (List.length_eq_zero.mp h0)
  rcases htm : transition_model corpus page d with e | t
  · simp only [transition_model, hget, if_neg hlen] at htm
    exact Except.noConfusion htm
  · exact ⟨t, rfl⟩

/-- Claim C1 (corrected), counterexample: for the dangling single page,
transition_model returns the distribution with total mass 3/20 = 1 - d,
not 1: the dangling page is not treated as linking to every page. -/
theorem claim1_counterexample :
    transition_model corpusSingle 0 (17/20) = Except.ok [(0, 3/20)] ∧
      valuesSum [(0, (3:ℚ)/20)] ≠ 1 := by
  constructor
  · norm_num [transition_model, corpusSingle, cget, dget, dset]
  · norm_num [valuesSum]

/-- Claim C1 (amended): for every well-formed corpus, page of the corpus
and damping factor in (0,1), transition_model succeeds, its key set is a
permutation of the corpus pages (every page exactly once), and its values
sum to 1 when the page has out-links but only to 1 - damping when the
page's out-link set is empty (the dangling mass is dropped, not spread). -/
theorem claim1_amended (corpus : Corpus) (page : Page) (d : ℚ) (lp : List Page)
    (hwf : WF corpus) (hget : cget corpus page = some lp)
    (hd0 : 0 < d) (hd1 : d < 1) :
    ∃ t, transition_model corpus page d = Except.ok t ∧
      List.Perm (keys t) (keys corpus) ∧
      valuesSum t = (if lp.length = 0 then 1 - d else 1) := by
  obtain ⟨hnd, _⟩ := WF_links corpus page lp hwf hget
  refine ⟨_, transition_model_eq corpus page d lp hwf.1 hget hwf.2.1 hnd, ?_, ?_⟩
  · have h := tm_keys_perm corpus page d lp hwf hget
    rwa [transition_model_eq corpus page d lp hwf.1 hget hwf.2.1 hnd, exDict] at h
  · have h := tm_sum corpus page d lp hwf hget
    rwa [transition_model_eq corpus page d lp hwf.1 hget hwf.2.1 hnd, exDict] at h

/-- Witness for claim1_amended at the two-page cycle with damping 1/2. -/
theorem claim1_witness :
    (WF corpusCycle ∧ cget corpusCycle 0 = some [1] ∧
        (0:ℚ) < 1/2 ∧ (1:ℚ)/2 < 1) ∧
      (∃ t, transition_model corpusCycle 0 (1/2) = Except.ok t ∧
        List.Perm (keys t) (keys corpusCycle) ∧
        valuesSum t = (if ([1] : List Page).length = 0 then 1 - 1/2 else 1)) :=
  ⟨⟨by decide, by decide, by norm_num, by norm_num⟩,
    claim1_amended corpusCycle 0 (1/2) [1] (by decide) (by decide)
      (by norm_num) (by norm_num)⟩

/-- Claim C10: calling transition_model with a page that is not a key of
the corpus fails with an exception (the out-link lookup yields nothing
and taking its length is an error) rather than returning a distribution;
under the precondition that the page is a key (and the corpus is
non-empty), the failure branch is unreachable and the call succeeds. -/
theorem claim10_missing_page (corpus : Corpus) (page : Page) (d : ℚ) :
    (page ∉ keys corpus → ∃ e, transition_model corpus page d = Except.error e) ∧
      (corpus ≠ [] → page ∈ keys corpus →
        ∃ t, transition_model corpus page d = Except.ok t) := by
  constructor
  · intro hnm
    have hget : cget corpus page = none := (cget_eq_none_iff corpus page).mpr hnm
    by_cases hc : corpus.length = 0
    · exact ⟨Err.zeroDivision, by simp only [transition_model, if_pos hc]⟩
    · exact ⟨Err.typeError, by simp only [transition_model, hget, if_neg hc]⟩
  · intro hne hmem
    exact tm_ok corpus page d hne hmem

/-- Witness for claim10_missing_page: page 5 is not in the two-page
cycle and the call fails; page 0 is and the call succeeds. -/
theorem claim10_witness :
    (5 ∉ keys corpusCycle ∧
        ∃ e, transition_model corpusCycle 5 (1/2) = Except.error e) ∧
      (corpusCycle ≠ [] ∧ 0 ∈ keys corpusCycle ∧
        ∃ t, transition_model corpusCycle 0 (1/2) = Except.ok t) :=
  ⟨⟨by decide, (claim10_missing_page corpusCycle 5 (1/2)).1 (by decide)⟩,
    ⟨by decide, by decide,
      (claim10_missing_page corpusCycle 0 (1/2)).2 (by decide) (by decide)⟩⟩

/-! ### The per-step draw of sample_pagerank (claim C2) -/

theorem zip_replicate_mass (l : List Page) (w : ℚ) (q : Page) :
    ((((l.zip (List.replicate l.length w))).filter (fun pw => pw.1 = q)).map
      (fun pw => pw.2)).sum = (l.count q : ℚ) * w := by
  induction l with
  | nil => simp
  | cons a t ih =>
    simp only [List.length_cons, List.replicate_succ, List.zip_cons_cons]
    by_cases hqa : a = q
    · subst hqa
      rw [List.filter_cons_of_pos (by simp)]
      simp only [List.map_cons, List.sum_cons]
      rw [ih, List.count_cons]
      push_cast
      simp
      ring
    · rw [List.filter_cons_of_neg (by simp [hqa])]
      rw [ih, List.count_cons]
      simp [beq_iff_eq, hqa]

theorem tm_value_linked (corpus : Corpus) (page : Page) (d : ℚ) (lp : List Page)
    (hwf : WF corpus) (hget : cget corpus page = some lp) (hlp : 0 < lp.length) :
    ∀ q ∈ lp, dgetD (exDict (transition_model corpus page d)) q 0
      = d / lp.length + (1 - d) / corpus.length := by
  intro q hq
  obtain ⟨hnd, _⟩ := WF_links corpus page lp hwf hget
  rw [transition_model_eq corpus page d lp hwf.1 hget hwf.2.1 hnd, exDict, if_pos hlp]
  rw [dgetD, dget_append, dget_map_const, if_pos hq]
  rfl

/-- Claim C2 counterexample: in the two-page cycle with current page 0
and damping 0.85, page 0 has transition probability 3/40 but the
weighted draw performed by sample_pagerank can never select it (its
selection probability is 0), because the population handed to
random.choices is only the out-link set of the current page. -/
theorem claim2_counterexample :
    weightedProb (drawPopulation corpusCycle 0) (drawWeights corpusCycle 0 (17/20)) 0 = 0 ∧
      dgetD (exDict (transition_model corpusCycle 0 (17/20))) 0 0 = 3/40 ∧
      ((0:ℚ) ≠ 3/40) := by
  refine ⟨?_, ?_, by norm_num⟩
  · norm_num [weightedProb, drawPopulation, drawWeights, corpusCycle, cget, sortedL,
      List.insertionSort, List.orderedInsert, transition_model, exDict, dget, dgetD,
      dset, keys]
  · norm_num [corpusCycle, cget, transition_model, exDict, dget, dgetD, dset, keys]

/-- Claim C2 (amended): each step of sample_pagerank draws from a
restricted population, not from the full transition distribution.  When
the current page has out-links, the draw is uniform over those out-links
(each with probability 1/|L|, which is its transition value renormalized
over the out-link set) and every other page has selection probability 0;
when the current page is dangling, the draw is uniform over all pages of
the graph (probability 1/N each). -/
theorem claim2_amended (corpus : Corpus) (page : Page) (d : ℚ) (lp : List Page)
    (hwf : WF corpus) (hget : cget corpus page = some lp)
    (hd0 : 0 < d) (hd1 : d < 1) :
    (0 < lp.length → ∀ q : Page,
      weightedProb (drawPopulation corpus page) (drawWeights corpus page d) q
        = if q ∈ lp then (1 : ℚ) / (lp.length : ℚ) else 0) ∧
    (lp.length = 0 → ∀ q : Page,
      weightedProb (drawPopulation corpus page) (drawWeights corpus page d) q
        = if q ∈ keys corpus then (1 : ℚ) / (corpus.length : ℚ) else 0) := by
  obtain ⟨hnd, _⟩ := WF_links corpus page lp hwf hget
  have hN : corpus.length ≠ 0 := by
    intro h0
    exact hwf.1 (List.length_eq_zero.mp h0)
  have hNQ : (corpus.length : ℚ) ≠ 0 := Nat.cast_ne_zero.mpr hN
  constructor
  · intro hlp q
    have hpop : drawPopulation corpus page = lp := by
      simp [drawPopulation, hget, if_pos hlp]
    have hperm : List.Perm (sortedL lp) lp := List.perm_insertionSort _ lp
    have hws : drawWeights corpus page d = List.replicate lp.length
        (d / lp.length + (1 - d) / corpus.length) := by
      have hcongr : (sortedL lp).map
          (fun q => dgetD (exDict (transition_model corpus page d)) q 0)
          = (sortedL lp).map (fun _ => d / lp.length + (1 - d) / corpus.length) := by
        apply List.map_congr_left
        intro x hx
        exact tm_value_linked corpus page d lp hwf hget hlp x (hperm.mem_iff.mp hx)
      have hlen : (sortedL lp).length = lp.length := hperm.length_eq
      simp only [drawWeights, hget, if_pos hlp, hcongr, List.map_const', hlen]
    have hLQ : (lp.length : ℚ) ≠ 0 := Nat.cast_ne_zero.mpr (by omega)
    have hwpos : d / lp.length + (1 - d) / corpus.length ≠ 0 := by
      have h1 : 0 < d / (lp.length : ℚ) := by
        apply div_pos hd0
        exact_mod_cast Nat.pos_of_ne_zero (by omega)
      have h2 : 0 ≤ (1 - d) / (corpus.length : ℚ) := by
        apply div_nonneg (by linarith)
        positivity
      linarith
    have hLw : (lp.length : ℚ) * (d / lp.length + (1 - d) / corpus.length) ≠ 0 :=
      mul_ne_zero hLQ hwpos
    rw [hpop, hws, weightedProb, zip_replicate_mass, List.sum_replicate, nsmul_eq_mul]
    by_cases hq : q ∈ lp
    · rw [if_pos hq, List.count_eq_one_of_mem hnd hq]
      push_cast
      rw [one_mul, div_eq_div_iff hLw hLQ]
      ring
    · rw [if_neg hq, List.count_eq_zero_of_not_mem hq]
      push_cast
      simp
  · intro hlp q
    have hlp2 : ¬ 0 < lp.length := by omega
    have hpop : drawPopulation corpus page = sortedL (keys corpus) := by
      simp [drawPopulation, hget, if_neg hlp2]
    have hperm : List.Perm (sortedL (keys corpus)) (keys corpus) :=
      List.perm_insertionSort _ (keys corpus)
    have hpoplen : (sortedL (keys corpus)).length = corpus.length := by
      rw [hperm.length_eq]
      simp [keys]
    have hws : drawWeights corpus page d = List.replicate (sortedL (keys corpus)).length
        ((1 - d) / corpus.length) := by
      simp only [drawWeights, hget, if_neg hlp2, List.map_const', List.length_range, hpoplen]
    have hwpos : (1 - d) / (corpus.length : ℚ) ≠ 0 := by
      apply ne_of_gt
      apply div_pos (by linarith)
      exact_mod_cast Nat.pos_of_ne_zero hN
    have hNw : (corpus.length : ℚ) * ((1 - d) / corpus.length) ≠ 0 :=
      mul_ne_zero hNQ hwpos
    rw [hpop, hws, weightedProb, zip_replicate_mass, List.sum_replicate, nsmul_eq_mul]
    have hcount : ((sortedL (keys corpus)).count q : ℚ) = ((keys corpus).count q : ℚ) := by
      exact_mod_cast congrArg (Nat.cast : ℕ → ℚ) (hperm.count_eq q)
    rw [hcount, hpoplen]
    by_cases hq : q ∈ keys corpus
    · rw [if_pos hq, List.count_eq_one_of_mem hwf.2.1 hq]
      push_cast
      rw [one_mul, div_eq_div_iff hNw hNQ]
      ring
    · rw [if_neg hq, List.count_eq_zero_of_not_mem hq]
      push_cast
      simp

/-- Witness for claim2_amended at the two-page cycle, current page 0. -/
theorem claim2_witness :
    (WF corpusCycle ∧ cget corpusCycle 0 = some [1] ∧ (0:ℚ) < 1/2 ∧ (1:ℚ)/2 < 1) ∧
      ((0 < ([1] : List Page).length → ∀ q : Page,
        weightedProb (drawPopulation corpusCycle 0) (drawWeights corpusCycle 0 (1/2)) q
          = if q ∈ ([1] : List Page) then (1 : ℚ) / (([1] : List Page).length : ℚ) else 0) ∧
      (([1] : List Page).length = 0 → ∀ q : Page,
        weightedProb (drawPopulation corpusCycle 0) (drawWeights corpusCycle 0 (1/2)) q
          = if q ∈ keys corpusCycle then (1 : ℚ) / (corpusCycle.length : ℚ) else 0)) :=
  ⟨⟨by decide, by decide, by norm_num, by norm_num⟩,
    claim2_amended corpusCycle 0 (1/2) [1] (by decide) (by decide)
      (by norm_num) (by norm_num)⟩

/-! ### The in-place pass of iterate_pagerank (claim C3) -/

/-- The rank dict produced by one pass over the given page list: each
page is updated in place from the dict as already modified by the
earlier pages of the same pass. -/
def passRanks (corpus : Corpus) (damping_factor : ℚ) : List Page → Dict → Dict
  | [], r => r
  | p :: rest, r =>
    passRanks corpus damping_factor rest (dset r p (pageNew corpus damping_factor r p))

theorem pageUpdate_fst (corpus : Corpus) (d : ℚ) (rc : Dict × Int) (p : Page) :
    (pageUpdate corpus d rc p).1 = dset rc.1 p (pageNew corpus d rc.1 p) := by
  rw [pageUpdate]
  split
  · rfl
  · rfl

theorem foldl_pageUpdate_ranks (corpus : Corpus) (d : ℚ) :
    ∀ (ps : List Page) (r : Dict) (c : Int),
      (ps.foldl (pageUpdate corpus d) (r, c)).1 = passRanks corpus d ps r
  | [], r, c => rfl
  | p :: rest, r, c => by
    have h1 : pageUpdate corpus d (r, c) p
        = (dset r p (pageNew corpus d r p), (pageUpdate corpus d (r, c) p).2) := by
      rw [← pageUpdate_fst corpus d (r, c) p]
    rw [List.foldl_cons, h1]
    exact foldl_pageUpdate_ranks corpus d rest _ _

theorem iteratePass_fst (corpus : Corpus) (d : ℚ) (r : Dict) (c : Int) :
    (iteratePass corpus d (r, c)).1 = passRanks corpus d (keys corpus) r :=
  foldl_pageUpdate_ranks corpus d (keys corpus) r c

/-- Claim C3 counterexample: corpusChain and corpusChainRev are the same
mapping (same keys, same out-links per key) presented in a different
iteration order, yet one pass of iterate_pagerank started from the
code's own uniform initialization gives page 1 a different rank (481/1800
against 4909/10800): the pass is order-dependent, hence not a
synchronous update from a frozen snapshot. -/
theorem claim3_counterexample :
    cget corpusChainRev 0 = cget corpusChain 0 ∧
      cget corpusChainRev 1 = cget corpusChain 1 ∧
      cget corpusChainRev 2 = cget corpusChain 2 ∧
      List.Perm (keys corpusChainRev) (keys corpusChain) ∧
      dget (iteratePass corpusChain (17/20) (initRanks corpusChain, 3)).1 1 ≠
        dget (iteratePass corpusChainRev (17/20) (initRanks corpusChainRev, 3)).1 1 := by
  refine ⟨by decide, by decide, by decide, by decide, ?_⟩
  rw [iteratePass_fst, iteratePass_fst]
  norm_num [passRanks, initRanks, corpusChain, corpusChainRev, keys, pageNew,
    pageSummation, incomingPages, dset, dget, dgetD, cget, cgetD]

/-- Claim C3 (amended): within a pass every page's new rank is computed
from the rank dict as already updated by the pages processed earlier in
the same pass (a sequential Gauss-Seidel sweep, not a Jacobi update from
a frozen snapshot), so the outcome depends on the key order.  On the
two-page cycle, for any damping factor and any starting ranks (a, b),
page 1's new rank is computed from page 0's freshly written rank
(1-d)/2 + d*b, not from its old rank a. -/
theorem claim3_amended (d a b : ℚ) (c : Int) :
    (iteratePass [(0, [1]), (1, [0])] d ([(0, a), (1, b)], c)).1
      = [(0, (1 - d) / 2 + d * b),
         (1, (1 - d) / 2 + d * ((1 - d) / 2 + d * b))] := by
  rw [iteratePass_fst]
  norm_num [passRanks, keys, pageNew, pageSummation, incomingPages, dset, dget,
    dgetD, cget, cgetD]

/-! ### Termination condition of the iterate_pagerank loop (claim C4) -/

theorem pass_counter (corpus : Corpus) (d : ℚ) :
    ∀ (ps : List Page) (r : Dict) (c : Int),
      ps.length ≤ corpus.length →
      (ps.foldl (pageUpdate corpus d) (r, c)).2 ≤ 0 →
      passAllWithin corpus d ps r = true ∧
        (ps.foldl (pageUpdate corpus d) (r, c)).2 = c - ps.length
  | [], r, c, _, h => ⟨rfl, by simpa using h⟩
  | p :: rest, r, c, hlen, h => by
    by_cases hw : |pageNew corpus d r p - dgetD r p 0| ≤ threshold
    · have hstep : pageUpdate corpus d (r, c) p
          = (dset r p (pageNew corpus d r p), c - 1) := by
        simp only [pageUpdate, if_pos hw]
      rw [List.foldl_cons, hstep] at h
      obtain ⟨hall, heq⟩ := pass_counter corpus d rest
        (dset r p (pageNew corpus d r p)) (c - 1)
        (le_trans (by simp) hlen) h
      refine ⟨?_, ?_⟩
      · simp only [passAllWithin, Bool.and_eq_true, decide_eq_true_eq]
        exact ⟨hw, hall⟩
      · rw [List.foldl_cons, hstep, heq]
        simp only [List.length_cons]
        push_cast
        ring
    · have hstep : pageUpdate corpus d (r, c) p
          = (dset r p (pageNew corpus d r p), (corpus.length : Int)) := by
        simp only [pageUpdate, if_neg hw]
      rw [List.foldl_cons, hstep] at h
      obtain ⟨hall, heq⟩ := pass_counter corpus d rest
        (dset r p (pageNew corpus d r p)) (corpus.length : Int)
        (le_trans (by simp) hlen) h
      exfalso
      rw [heq] at h
      have hlen2 : rest.length + 1 ≤ corpus.length := by simpa using hlen
      omega

theorem iterateLoop_some (corpus : Corpus) (d : ℚ) :
    ∀ (fuel : Nat) (r : Dict) (c : Int) (res : Dict),
      iterateLoop corpus d fuel (r, c) = some res →
      (c ≤ 0 ∧ res = r) ∨
        ∃ rp cp, 0 < cp ∧ (iteratePass corpus d (rp, cp)).1 = res ∧
          (iteratePass corpus d (rp, cp)).2 ≤ 0
  | 0, r, c, res, h => by simp [iterateLoop] at h
  | fuel + 1, r, c, res, h => by
    by_cases hc : 0 < c
    · rw [iterateLoop, if_pos hc] at h
      rcases hp : iteratePass corpus d (r, c) with ⟨r2, c2⟩
      rw [hp] at h
      rcases iterateLoop_some corpus d fuel r2 c2 res h with ⟨hc2, hres⟩ | ⟨rp, cp, hcp, h1, h2⟩
      · subst hres
        exact Or.inr ⟨r, c, hc, by rw [hp], by rw [hp]; exact hc2⟩
      · exact Or.inr ⟨rp, cp, hcp, h1, h2⟩
    · rw [iterateLoop, if_neg hc] at h
      injection h with h
      exact Or.inl ⟨by omega, h.symm⟩

/-- Claim C4: when the while loop of iterate_pagerank returns a result,
the final pass it ran updated every single page by at most the threshold
(0.001): a pass containing any page whose rank moved by more than the
threshold resets the counter and can never be the exiting pass. -/
theorem claim4_exit_all_within (corpus : Corpus) (d : ℚ) (fuel : Nat) (res : Dict)
    (hne : corpus ≠ []) (h : iterate_pagerank corpus d fuel = some res) :
    ∃ rp c, 0 < c ∧ (iteratePass corpus d (rp, c)).1 = res ∧
      (iteratePass corpus d (rp, c)).2 ≤ 0 ∧
      passAllWithin corpus d (keys corpus) rp = true := by
  rw [iterate_pagerank] at h
  rcases iterateLoop_some corpus d fuel (initRanks corpus) (corpus.length : Int) res h with
    ⟨hc0, _⟩ | ⟨rp, cp, hcp, h1, h2⟩
  · exfalso
    have : 0 < corpus.length := List.length_pos.mpr hne
    omega
  · have hkeyslen : (keys corpus).length ≤ corpus.length := by simp [keys]
    have := pass_counter corpus d (keys corpus) rp cp hkeyslen h2
    exact ⟨rp, cp, hcp, h1, h2, this.1⟩

/-- Witness for claim4_exit_all_within: the single dangling page with
standard damping converges on the first pass, and that pass is within
threshold on its only page. -/
theorem claim4_witness :
    (corpusSingle ≠ [] ∧ iterate_pagerank corpusSingle (17/20) 2 = some [(0, 1)]) ∧
      (∃ rp c, 0 < c ∧ (iteratePass corpusSingle (17/20) (rp, c)).1 = [(0, 1)] ∧
        (iteratePass corpusSingle (17/20) (rp, c)).2 ≤ 0 ∧
        passAllWithin corpusSingle (17/20) (keys corpusSingle) rp = true) :=
  ⟨⟨by decide, by norm_num [iterate_pagerank, iterateLoop, iteratePass, initRanks,
      pageUpdate, pageNew, pageSummation, incomingPages, corpusSingle, keys, dset,
      dget, dgetD, cget, cgetD, threshold, abs_le]⟩,
    claim4_exit_all_within corpusSingle (17/20) 2 [(0, 1)] (by decide)
      (by norm_num [iterate_pagerank, iterateLoop, iteratePass, initRanks,
        pageUpdate, pageNew, pageSummation, incomingPages, corpusSingle, keys, dset,
        dget, dgetD, cget, cgetD, threshold, abs_le])⟩

/-! ### The returned sum of iterate_pagerank misses 1 (claim C6) -/

/-- Claim C6 evidence: on the three-page chain with a dangling tail and
damping factor 1/10, the loop of iterate_pagerank converges (two passes)
and returns ranks summing to 1 - 37/750000, off from 1 by about 4.9e-5,
far more than the claimed 1e-6 tolerance: the in-place update with early
stopping at threshold 0.001 does not keep the total mass at 1. -/
theorem claim6_sum_off :
    iterate_pagerank corpusChain (1/10) 5
      = some [(0, 7009/22500), (1, 77099/225000), (2, 259333/750000)] ∧
      |valuesSum [(0, (7009:ℚ)/22500), (1, 77099/225000), (2, 259333/750000)] - 1|
        > 1/1000000 := by
  constructor
  · norm_num [iterate_pagerank, iterateLoop, iteratePass, initRanks, pageUpdate,
      pageNew, pageSummation, incomingPages, corpusChain, keys, dset, dget, dgetD,
      cget, cgetD, threshold, abs_le]
  · have hv : valuesSum [(0, (7009:ℚ)/22500), (1, 77099/225000), (2, 259333/750000)] - 1
        = -(37/750000) := by
      norm_num [valuesSum]
    rw [hv, abs_neg, abs_of_pos (by norm_num)]
    norm_num

/-! ### The sampling walk and sampler normalization (claims C5, C7, C8) -/

theorem getD_mod_mem (l : List Page) (h : l ≠ []) (k : Nat) :
    l.getD (k % l.length) 0 ∈ l := by
  have hl : 0 < l.length := List.length_pos.mpr h
  have hm := Nat.mod_lt k hl
  rw [List.getD_eq_getElem _ _ hm]
  exact l.getElem_mem hm

theorem sortedL_perm (l : List Page) : List.Perm (sortedL l) l :=
  List.perm_insertionSort _ l

theorem drawPopulation_spec (corpus : Corpus) (cur : Page)
    (hwf : WF corpus) (hmem : cur ∈ keys corpus) :
    drawPopulation corpus cur ≠ [] ∧ ∀ q ∈ drawPopulation corpus cur, q ∈ keys corpus := by
  obtain ⟨lp, hget⟩ := cget_isSome_of_mem corpus cur hmem
  obtain ⟨_, hsub⟩ := WF_links corpus cur lp hwf hget
  by_cases hlp : 0 < lp.length
  · have hpop : drawPopulation corpus cur = lp := by
      simp [drawPopulation, hget, if_pos hlp]
    rw [hpop]
    exact ⟨by intro h0; rw [h0] at hlp; simp at hlp, hsub⟩
  · have hpop : drawPopulation corpus cur = sortedL (keys corpus) := by
      simp [drawPopulation, hget, if_neg hlp]
    rw [hpop]
    constructor
    · intro h0
      have hl := (sortedL_perm (keys corpus)).length_eq
      rw [h0] at hl
      have : corpus.length = 0 := by simpa [keys] using hl.symm
      exact hwf.1 (List.length_eq_zero.mp this)
    · intro q hq
      exact (sortedL_perm (keys corpus)).subset hq

theorem sampleWalk_ok (corpus : Corpus) (d : ℚ) (seed : Nat → Nat) (hwf : WF corpus) :
    ∀ (i : Nat) (cur : Page), cur ∈ keys corpus →
      ∃ s, sampleWalk corpus d seed i cur = Except.ok s ∧ s.length = i ∧
        ∀ q ∈ s, q ∈ keys corpus
  | 0, cur, _ => ⟨[], rfl, rfl, by simp⟩
  | i + 1, cur, hc => by
    obtain ⟨t, ht⟩ := tm_ok corpus cur d hwf.1 hc
    obtain ⟨hne, hsub⟩ := drawPopulation_spec corpus cur hwf hc
    have hnext : (drawPopulation corpus cur).getD
        (seed (i + 1) % (drawPopulation corpus cur).length) 0 ∈ keys corpus :=
      hsub _ (getD_mod_mem _ hne _)
    obtain ⟨s, hs, hslen, hssub⟩ := sampleWalk_ok corpus d seed hwf i _ hnext
    refine ⟨cur :: s, ?_, by simp [hslen], ?_⟩
    · simp only [sampleWalk, ht, hs]
    · intro q hq
      rcases List.mem_cons.mp hq with hq | hq
      · subst hq
        exact hc
      · exact hssub q hq

theorem sum_indicator (ks : List Page) (q : Page) (hnd : ks.Nodup) (hq : q ∈ ks) :
    (ks.map (fun p => if p = q then (1:ℚ) else 0)).sum = 1 := by
  induction ks with
  | nil => cases hq
  | cons a t ih =>
    by_cases hqa : a = q
    · subst hqa
      have hnt : a ∉ t := (List.nodup_cons.mp hnd).1
      simp only [List.map_cons, List.sum_cons, if_pos rfl]
      have hz : (t.map (fun p => if p = a then (1:ℚ) else 0)) = t.map (fun _ => (0:ℚ)) := by
        apply List.map_congr_left
        intro x hx
        rw [if_neg]
        rintro rfl
        exact hnt hx
      rw [hz]
      simp
    · have h1 : q ∈ t := by
        rcases List.mem_cons.mp hq with h | h
        · exact absurd h.symm hqa
        · exact h
      simp only [List.map_cons, List.sum_cons, if_neg hqa]
      rw [ih (List.nodup_cons.mp hnd).2 h1]
      ring

theorem sum_counts (ks : List Page) (hnd : ks.Nodup) :
    ∀ (s : List Page), (∀ q ∈ s, q ∈ ks) →
      (ks.map (fun p => (s.count p : ℚ))).sum = s.length
  | [], _ => by simp
  | q :: t, hsub => by
    have h1 : ∀ p : Page, (((q :: t).count p : ℚ))
        = (t.count p : ℚ) + (if p = q then (1:ℚ) else 0) := by
      intro p
      rw [List.count_cons]
      by_cases hpq : p = q
      · subst hpq
        simp
      · simp [hpq, Ne.symm hpq]
    have h2 : (ks.map (fun p => ((q :: t).count p : ℚ)))
        = ks.map (fun p => (t.count p : ℚ) + (if p = q then (1:ℚ) else 0)) := by
      apply List.map_congr_left
      intro p _
      exact h1 p
    rw [h2, List.sum_map_add, sum_counts ks hnd t (fun x hx => hsub x (List.mem_cons_of_mem _ hx)),
      sum_indicator ks q hnd (hsub q (List.mem_cons_self q t))]
    simp

theorem keys_map_fn (l : List Page) (f : Page → ℚ) :
    keys (l.map (fun q => (q, f q))) = l := by
  induction l with
  | nil => rfl
  | cons a rest ih =>
    simp only [List.map_cons, keys] at ih ⊢
    rw [ih]

theorem valuesSum_map_fn (l : List Page) (f : Page → ℚ) :
    valuesSum (l.map (fun q => (q, f q))) = (l.map f).sum := by
  induction l with
  | nil => rfl
  | cons a rest ih =>
    simp only [List.map_cons, valuesSum, List.sum_cons] at ih ⊢
    rw [ih]

/-- Claim C5: for every well-formed corpus, damping factor in (0,1) and
sample count n at least 1, sample_pagerank succeeds, its result has
exactly the corpus pages as keys (pages never visited getting value 0 by
construction), every value is a natural visit count divided by the same
n, and the values sum to exactly 1 (the n visit counts sum to n). -/
theorem claim5_sampler_normalization (corpus : Corpus) (d : ℚ) (n : Nat) (seed : Nat → Nat)
    (hwf : WF corpus) (hd0 : 0 < d) (hd1 : d < 1) (hn : 1 ≤ n) :
    ∃ r, sample_pagerank corpus d n seed = Except.ok r ∧
      keys r = keys corpus ∧
      (∀ kv ∈ r, ∃ cnt : ℕ, kv.2 = (cnt : ℚ) / n) ∧
      valuesSum r = 1 := by
  have hkne : sortedL (keys corpus) ≠ [] := by
    intro h0
    have hl := (sortedL_perm (keys corpus)).length_eq
    rw [h0] at hl
    have : corpus.length = 0 := by simpa [keys] using hl.symm
    exact hwf.1 (List.length_eq_zero.mp this)
  have hlen0 : ¬ (sortedL (keys corpus)).length = 0 := by
    intro h0
    exact hkne (List.length_eq_zero.mp h0)
  have hstart : (sortedL (keys corpus)).getD
      (seed 0 % (sortedL (keys corpus)).length) 0 ∈ keys corpus :=
    (sortedL_perm (keys corpus)).subset (getD_mod_mem _ hkne _)
  obtain ⟨s, hs, hslen, hssub⟩ := sampleWalk_ok corpus d seed hwf n _ hstart
  refine ⟨(keys corpus).map (fun page =>
      (page, if page ∈ s then (s.count page : ℚ) / n else 0)), ?_, ?_, ?_, ?_⟩
  · simp only [sample_pagerank, if_neg hlen0, hs]
  · exact keys_map_fn (keys corpus) _
  · intro kv hkv
    obtain ⟨p, _, rfl⟩ := List.mem_map.mp hkv
    by_cases hp : p ∈ s
    · exact ⟨s.count p, by simp [hp]⟩
    · exact ⟨0, by simp [hp]⟩
  · rw [valuesSum_map_fn]
    have hcong : (keys corpus).map (fun p => if p ∈ s then (s.count p : ℚ) / n else 0)
        = (keys corpus).map (fun p => (s.count p : ℚ) * ((n : ℚ))⁻¹) := by
      apply List.map_congr_left
      intro p _
      by_cases hp : p ∈ s
      · rw [if_pos hp, div_eq_mul_inv]
      · rw [if_neg hp, List.count_eq_zero_of_not_mem hp]
        simp
    rw [hcong, List.sum_map_mul_right, sum_counts (keys corpus) hwf.2.1 s hssub, hslen]
    exact mul_inv_cancel₀ (Nat.cast_ne_zero.mpr (by omega))

/-- Witness for claim5_sampler_normalization at the two-page cycle with
damping 1/2 and three samples. -/
theorem claim5_witness :
    (WF corpusCycle ∧ (0:ℚ) < 1/2 ∧ (1:ℚ)/2 < 1 ∧ 1 ≤ 3) ∧
      (∃ r, sample_pagerank corpusCycle (1/2) 3 (fun k => k) = Except.ok r ∧
        keys r = keys corpusCycle ∧
        (∀ kv ∈ r, ∃ cnt : ℕ, kv.2 = (cnt : ℚ) / 3) ∧
        valuesSum r = 1) :=
  ⟨⟨by decide, by norm_num, by norm_num, by norm_num⟩,
    claim5_sampler_normalization corpusCycle (1/2) 3 (fun k => k) (by decide)
      (by norm_num) (by norm_num) (by norm_num)⟩

theorem walk_single (d : ℚ) (seed : Nat → Nat) :
    ∀ i : Nat, sampleWalk corpusSingle d seed i 0 = Except.ok (List.replicate i 0)
  | 0 => rfl
  | i + 1 => by
    obtain ⟨t, ht⟩ := tm_ok corpusSingle 0 d (by decide) (by decide)
    have hpop : drawPopulation corpusSingle 0 = [0] := by decide
    have hnext : (drawPopulation corpusSingle 0).getD
        (seed (i + 1) % (drawPopulation corpusSingle 0).length) 0 = 0 := by
      rw [hpop]
      simp
    simp only [sampleWalk, ht, hnext, walk_single d seed i]
    rw [List.replicate_succ]

/-- Claim C7: on the single-page graph (one page, no out-links), both
algorithms return rank exactly 1 for that page: sample_pagerank for
every damping factor in (0,1), every sample count n at least 1 and every
random seed, and iterate_pagerank with the standard damping 0.85 (its
loop converges after one pass). -/
theorem claim7_single_page :
    (∀ (d : ℚ) (n : Nat) (seed : Nat → Nat), 0 < d → d < 1 → 1 ≤ n →
      sample_pagerank corpusSingle d n seed = Except.ok [(0, 1)]) ∧
      iterate_pagerank corpusSingle (17/20) 2 = some [(0, 1)] := by
  constructor
  · intro d n seed hd0 hd1 hn
    have hsorted : sortedL (keys corpusSingle) = [0] := by decide
    have hmem : (0 : Page) ∈ List.replicate n 0 := List.mem_replicate.mpr ⟨by omega, rfl⟩
    have hcount : (List.replicate n 0).count 0 = n := List.count_replicate_self 0 n
    have hnn : ((n : ℚ)) ≠ 0 := Nat.cast_ne_zero.mpr (by omega)
    have hlen : ¬ (sortedL (keys corpusSingle)).length = 0 := by decide
    have hstart : (sortedL (keys corpusSingle)).getD
        (seed 0 % (sortedL (keys corpusSingle)).length) 0 = 0 := by
      rw [hsorted]
      simp
    simp only [sample_pagerank, if_neg hlen, hstart, walk_single d seed n]
    simp only [keys, corpusSingle, List.map_cons, List.map_nil]
    rw [if_pos hmem, hcount, div_self hnn]
  · norm_num [iterate_pagerank, iterateLoop, iteratePass, initRanks, pageUpdate,
      pageNew, pageSummation, incomingPages, corpusSingle, keys, dset, dget, dgetD,
      cget, cgetD, threshold, abs_le]

/-- Witness for claim7_single_page with damping 1/2, three samples and
the identity seed. -/
theorem claim7_witness :
    sample_pagerank corpusSingle (1/2) 3 (fun k => k) = Except.ok [(0, 1)] ∧
      iterate_pagerank corpusSingle (17/20) 2 = some [(0, 1)] :=
  ⟨claim7_single_page.1 (1/2) 3 (fun k => k) (by norm_num) (by norm_num) (by norm_num),
    claim7_single_page.2⟩

/-- Claim C8: called on the empty graph, sample_pagerank signals the
invalid-input error of the very first statement (drawing the start page
from an empty population) before any rank computation, returning nothing
partial; in particular it does not reach the division by len(corpus)
inside transition_model (which would be the zeroDivision error). -/
theorem claim8_empty_graph (d : ℚ) (n : Nat) (seed : Nat → Nat) :
    sample_pagerank [] d n seed = Except.error Err.invalidInput ∧
      Err.invalidInput ≠ Err.zeroDivision :=
  ⟨rfl, by decide⟩

/-! ### Frame property: neither algorithm mutates the corpus (claim C9)

The two entry points are re-embedded in state-passing style: the corpus
object is threaded through every statement of the source, so that a dict
mutation of the corpus would have to show up as a changed corpus
component.  Since no statement of either function assigns into the
corpus (they only read it and write the locally created rank dicts), the
threaded corpus is returned unchanged and the result components agree
with the direct embedding. -/

/-- The inner for-loop body of iterate_pagerank in state-passing style:
the state carries the corpus next to the rank dict and the counter. -/
def pageUpdateSt (damping_factor : ℚ) (s : Corpus × Dict × Int) (page_p : Page) :
    Corpus × Dict × Int :=
  let corpus := s.1
  let old_pagerank := dgetD s.2.1 page_p 0
  let new_pagerank := pageNew corpus damping_factor s.2.1 page_p
  let r2 := dset s.2.1 page_p new_pagerank
  if |new_pagerank - old_pagerank| ≤ threshold then (corpus, r2, s.2.2 - 1)
  else (corpus, r2, (corpus.length : Int))

/-- The while loop of iterate_pagerank in state-passing style, returning
the result together with the final corpus state. -/
def iterateLoopSt (damping_factor : ℚ) : Nat → Corpus × Dict × Int → Option Dict × Corpus
  | 0, s => (none, s.1)
  | fuel + 1, s =>
    if 0 < s.2.2 then
      iterateLoopSt damping_factor fuel ((keys s.1).foldl (pageUpdateSt damping_factor) s)
    else (some s.2.1, s.1)

/-- iterate_pagerank in state-passing style. -/
def iterate_pagerankSt (corpus : Corpus) (damping_factor : ℚ) (fuel : Nat) :
    Option Dict × Corpus :=
  iterateLoopSt damping_factor fuel (corpus, initRanks corpus, (corpus.length : Int))

/-- The sampling walk in state-passing style. -/
def sampleWalkSt (damping_factor : ℚ) (seed : Nat → Nat) :
    Nat → Page → Corpus → Except Err (List Page) × Corpus
  | 0, _, corpus => (Except.ok [], corpus)
  | i + 1, current_page, corpus =>
    match transition_model corpus current_page damping_factor with
    | .error e => (.error e, corpus)
    | .ok _ =>
      let pop := drawPopulation corpus current_page
      let next := pop.getD (seed (i + 1) % pop.length) 0
      match sampleWalkSt damping_factor seed i next corpus with
      | (.error e, c2) => (.error e, c2)
      | (.ok rest, c2) => (.ok (current_page :: rest), c2)

/-- sample_pagerank in state-passing style. -/
def sample_pagerankSt (corpus : Corpus) (damping_factor : ℚ) (n : Nat) (seed : Nat → Nat) :
    Except Err Dict × Corpus :=
  let sorted_corpus := sortedL (keys corpus)
  if sorted_corpus.length = 0 then (Except.error Err.invalidInput, corpus)
  else
    let random_page := sorted_corpus.getD (seed 0 % sorted_corpus.length) 0
    match sampleWalkSt damping_factor seed n random_page corpus with
    | (.error e, c2) => (.error e, c2)
    | (.ok sample_list, c2) =>
      (.ok ((keys c2).map (fun page =>
        (page, if page ∈ sample_list then (sample_list.count page : ℚ) / n else 0))), c2)

theorem pageUpdateSt_eq (d : ℚ) (corpus : Corpus) (r : Dict) (c : Int) (p : Page) :
    pageUpdateSt d (corpus, r, c) p = (corpus, pageUpdate corpus d (r, c) p) := by
  simp only [pageUpdateSt, pageUpdate]
  split
  · rfl
  · rfl

theorem foldl_pageUpdateSt (d : ℚ) (corpus : Corpus) :
    ∀ (ps : List Page) (r : Dict) (c : Int),
      ps.foldl (pageUpdateSt d) (corpus, r, c)
        = (corpus, ps.foldl (pageUpdate corpus d) (r, c))
  | [], r, c => rfl
  | p :: rest, r, c => by
    rw [List.foldl_cons, List.foldl_cons, pageUpdateSt_eq]
    rcases hp : pageUpdate corpus d (r, c) p with ⟨r2, c2⟩
    exact foldl_pageUpdateSt d corpus rest r2 c2

theorem iterateLoopSt_eq (d : ℚ) (corpus : Corpus) :
    ∀ (fuel : Nat) (r : Dict) (c : Int),
      iterateLoopSt d fuel (corpus, r, c) = (iterateLoop corpus d fuel (r, c), corpus)
  | 0, r, c => rfl
  | fuel + 1, r, c => by
    by_cases hc : 0 < c
    · have h1 : iterateLoopSt d (fuel + 1) (corpus, r, c)
          = iterateLoopSt d fuel ((keys corpus).foldl (pageUpdateSt d) (corpus, r, c)) := by
        simp only [iterateLoopSt, if_pos hc]
      have h2 : iterateLoop corpus d (fuel + 1) (r, c)
          = iterateLoop corpus d fuel (iteratePass corpus d (r, c)) := by
        simp only [iterateLoop, if_pos hc]
      rw [h1, h2, foldl_pageUpdateSt]
      rcases hp : (keys corpus).foldl (pageUpdate corpus d) (r, c) with ⟨r2, c2⟩
      have : iteratePass corpus d (r, c) = (r2, c2) := hp
      rw [this]
      exact iterateLoopSt_eq d corpus fuel r2 c2
    · simp only [iterateLoopSt, iterateLoop, if_neg hc]

theorem sampleWalkSt_eq (d : ℚ) (seed : Nat → Nat) :
    ∀ (i : Nat) (cur : Page) (corpus : Corpus),
      sampleWalkSt d seed i cur corpus = (sampleWalk corpus d seed i cur, corpus)
  | 0, cur, corpus => rfl
  | i + 1, cur, corpus => by
    simp only [sampleWalkSt, sampleWalk]
    rcases transition_model corpus cur d with e | t
    · rfl
    · rw [sampleWalkSt_eq d seed i _ corpus]
      rcases sampleWalk corpus d seed i _ with e | s
      · rfl
      · rfl

/-- Claim C9: neither algorithm mutates the input graph.  In the
state-passing embedding, which threads the corpus through every
statement of both functions, each call returns the corpus component
unchanged, and the freshly built rank mapping it returns is exactly the
one computed by the direct embedding. -/
theorem claim9_no_mutation (corpus : Corpus) (d : ℚ) (n : Nat) (seed : Nat → Nat)
    (fuel : Nat) :
    sample_pagerankSt corpus d n seed = (sample_pagerank corpus d n seed, corpus) ∧
      iterate_pagerankSt corpus d fuel = (iterate_pagerank corpus d fuel, corpus) := by
  constructor
  · simp only [sample_pagerankSt, sample_pagerank]
    by_cases h0 : (sortedL (keys corpus)).length = 0
    · simp only [if_pos h0]
    · simp only [if_neg h0]
      rw [sampleWalkSt_eq]
      rcases sampleWalk corpus d seed n _ with e | s
      · rfl
      · rfl
  · exact iterateLoopSt_eq d corpus fuel (initRanks corpus) (corpus.length : Int)
